import Mathlib

/-!
Verification of `scripts/notion_to_hugo.py`: a shallow embedding of the
script's pure text-processing functions (rich-text and block formatting,
slugification, markdown cleanup, paginated fetching, frontmatter
composition and the orchestrator), together with theorems settling the
specification claims about them.

Python strings are modelled as `String` / `List Char`; Python dicts of
typed property values as ordered association lists over an inductive
value type; the paginated network interface as a function from
`(block_id, optional cursor)` to a response record; loops as fuelled
structural recursion returning `Option` (with `none` for exhausted fuel).
-/

set_option autoImplicit false

namespace NotionToHugo

/-! ### Generic machinery for character runs (models `re.sub(r"c{k,}", ...)`) -/

/-- `startsRun c k l` holds when the first `k` characters of `l` all equal `c`. -/
def startsRun (c : Char) : Nat → List Char → Bool
  | 0, _ => true
  | _ + 1, [] => false
  | k + 1, x :: xs => x = c && startsRun c k xs

/-- `hasRun c k l` holds when `l` contains `k` consecutive copies of `c`. -/
def hasRun (c : Char) (k : Nat) : List Char → Bool
  | [] => startsRun c k []
  | x :: xs => startsRun c k (x :: xs) || hasRun c k xs

/-- Propositional form of `hasRun`: `l` contains `k` consecutive copies of `c`. -/
def containsRun (c : Char) (k : Nat) (l : List Char) : Prop :=
  ∃ a b, l = a ++ List.replicate k c ++ b

/-- Worker for `collapseRuns`: `n` counts the pending run of `c` already read. -/
def collapseRunsAux (c : Char) (m : Nat) : Nat → List Char → List Char
  | n, [] => List.replicate (min n m) c
  | n, x :: xs =>
    if x = c then collapseRunsAux c m (n + 1) xs
    else List.replicate (min n m) c ++ x :: collapseRunsAux c m 0 xs

/-- Replace every maximal run of the character `c` longer than `m` by exactly
`m` copies, leaving shorter runs unchanged.  With `c = '\n', m = 3` this is
`re.sub(r"\n{4,}", "\n\n\n", ·)`; with `c = '-', m = 1` it is
`re.sub(r"-{2,}", "-", ·)`. -/
def collapseRuns (c : Char) (m : Nat) (l : List Char) : List Char :=
  collapseRunsAux c m 0 l

/-! ### Generic two-sided strip (models Python `str.strip`) -/

/-- `pyStripWith p l` removes the characters satisfying `p` from both ends of
`l`, as Python's `str.strip` family does. -/
def pyStripWith (p : Char → Bool) (l : List Char) : List Char :=
  (((l.dropWhile p).reverse.dropWhile p)).reverse

/-- Python `str.isspace` on the characters Python's `str.strip()` removes. -/
def pyIsSpace (c : Char) : Bool :=
  c = ' ' || c = '\t' || c = '\n' || c = '\r' || c = '\x0b' || c = '\x0c'

/-! ### Rich-text spans and `_rt_to_md` (source lines 114-134)

A Notion rich-text item is a dict with `plain_text`, an `annotations` dict
(of which the source reads the boolean keys `code`, `bold`, `italic`,
`strikethrough`, each defaulting to falsy when absent) and an optional
`href`.  We model it as a record of those fields; Python truthiness of
`href` makes `None` and `""` both count as "no link". -/

structure Span where
  plain_text : String
  bold : Bool
  italic : Bool
  strikethrough : Bool
  code : Bool
  href : Option String
deriving Repr, DecidableEq

/-- Per-item body of the loop in `_rt_to_md`. -/
def spanToMd (t : Span) : String :=
  let text := t.plain_text
  let text := if t.code then "`" ++ text ++ "`" else text
  let text := if t.bold then "**" ++ text ++ "**" else text
  let text := if t.italic then "*" ++ text ++ "*" else text
  let text := if t.strikethrough then "~~" ++ text ++ "~~" else text
  let text :=
    match t.href with
    | some h => if h = "" then text else "[" ++ text ++ "](" ++ h ++ ")"
    | none => text
  text

/-- `_rt_to_md`: formats each span and joins the results in order. -/
def rt_to_md (rich_text : List Span) : String :=
  String.join (rich_text.map spanToMd)

/-- Symmetric wrap used to state the nesting order of `spanToMd`. -/
def applyWrap (b : Bool) (w s : String) : String :=
  if b then w ++ s ++ w else s

/-- Link wrap used to state the outermost step of `spanToMd`. -/
def applyLink (href : Option String) (s : String) : String :=
  match href with
  | some h => if h = "" then s else "[" ++ s ++ "](" ++ h ++ ")"
  | none => s

/-! ### Blocks and `_block_to_md` (source lines 137-196)

A block is a dict with a `type` tag selecting a payload dict.  We model the
recognized tags as constructors carrying exactly the payload fields the
source reads (with their Python defaults), and a catch-all `other`
constructor for any unrecognized-or-absent tag, which carries the raw tag
(`none` models an absent `type` key). -/

inductive Block where
  | paragraph (rich_text : List Span)
  | heading_1 (rich_text : List Span)
  | heading_2 (rich_text : List Span)
  | heading_3 (rich_text : List Span)
  | bulleted_list_item (rich_text : List Span)
  | numbered_list_item (rich_text : List Span)
  | quote (rich_text : List Span)
  | code (rich_text : List Span) (language : String)
  | divider
  | callout (rich_text : List Span)
  | to_do (rich_text : List Span) (checked : Bool)
  | image (caption : List Span)
  | other (tag : Option String)
deriving Repr, DecidableEq

/-- `" " * indent`. -/
def spaces (n : Nat) : String :=
  String.mk (List.replicate n ' ')

/-- `_block_to_md` (the Python default `indent=0` is passed explicitly). -/
def block_to_md (block : Block) (indent : Nat) : String :=
  let pre := spaces indent
  match block with
  | .paragraph rt =>
    let txt := rt_to_md rt
    if pyStripWith pyIsSpace txt.data ≠ [] then pre ++ txt ++ "\n" else "\n"
  | .heading_1 rt => "# " ++ rt_to_md rt ++ "\n\n"
  | .heading_2 rt => "## " ++ rt_to_md rt ++ "\n\n"
  | .heading_3 rt => "### " ++ rt_to_md rt ++ "\n\n"
  | .bulleted_list_item rt => pre ++ "- " ++ rt_to_md rt ++ "\n"
  | .numbered_list_item rt => pre ++ "1. " ++ rt_to_md rt ++ "\n"
  | .quote rt => "> " ++ rt_to_md rt ++ "\n\n"
  | .code rt lang =>
    "```" ++ lang ++ "\n" ++ String.join (rt.map (fun x => x.plain_text)) ++ "\n```\n\n"
  | .divider => "\n---\n\n"
  | .callout rt => "> " ++ rt_to_md rt ++ "\n\n"
  | .to_do rt checked =>
    let box := if checked then "x" else " "
    pre ++ "- [" ++ box ++ "] " ++ rt_to_md rt ++ "\n"
  | .image cap => "\n<!-- image omitted: " ++ rt_to_md cap ++ " -->\n\n"
  | .other _ => ""

/-! ### Slugification: `_safe_slug` (source lines 52-56)

`slugify(title, allow_unicode=True)` comes from the third-party
`python-slugify` package, which is not part of this repository. -/

/-- Characters the unicode-preserving slug keeps: lowercase ASCII letters
(code points 97-122), digits (48-57), the hyphen separator (45), and
non-ASCII characters from `U+00A1` (161) up. -/
def slugAllowed (c : Char) : Bool :=
  (97 ≤ c.toNat && c.toNat ≤ 122) || (48 ≤ c.toNat && c.toNat ≤ 57) ||
    c.toNat = 45 || 161 ≤ c.toNat

/-- ASCII lowercasing (code points 65-90 shift by 32). -/
def asciiToLower (c : Char) : Char :=
  if 65 ≤ c.toNat && c.toNat ≤ 90 then Char.ofNat (c.toNat + 32) else c

/-- Lowercase a character and replace it by the separator if disallowed. -/
def slugifyMap (c : Char) : Char :=
  if slugAllowed (asciiToLower c) then asciiToLower c else '-'

def isDash (c : Char) : Bool := c = '-'

/-- Modelled from the spec: the third-party `slugify(·, allow_unicode=True)`
(`python-slugify`), absent from the repository sources, described by the
spec as "lowercase, unicode-preserving transliteration-free slug, collapse
repeated hyphens, trim hyphens". -/
def slugify (title : List Char) : List Char :=
  pyStripWith isDash (collapseRuns '-' 1 (title.map slugifyMap))

/-- The two statements `s = re.sub(r"-{2,}", "-", s)` and `s = s.strip("-")`
of `_safe_slug` applied to `s = slugify(title)`. -/
def slugCore (title : List Char) : List Char :=
  pyStripWith isDash (collapseRuns '-' 1 (slugify title))

/-- `_safe_slug`: slugify then `re.sub(r"-{2,}", "-", s).strip("-")`, with
`return s or "untitled"` falling back to the placeholder when empty. -/
def safe_slug (title : List Char) : List Char :=
  if slugCore title = [] then "untitled".data else slugCore title

/-! ### Markdown cleanup (source lines 227-230) -/

/-- `re.sub(r"\n{4,}", "\n\n\n", md)` followed by `md.strip() + "\n"`. -/
def cleanupChars (l : List Char) : List Char :=
  pyStripWith pyIsSpace (collapseRuns '\n' 3 l) ++ ['\n']

def cleanupMd (s : String) : String :=
  String.mk (cleanupChars s.data)

/-! ### Paginated fetch: `fetch_page_markdown` (source lines 199-230)

`notion.blocks.children.list(block_id, start_cursor)` is modelled as a
function from the block id and the optional `start_cursor` argument to a
response record; `none` for the cursor models the call made without a
`start_cursor` keyword.  The `while True` loops become fuelled recursion
returning `none` when fuel runs out; the source loops terminate exactly
when some finite fuel suffices. -/

/-- One element of the `results` array of a listing response: a typed block
together with its `id` and `has_children` flag. -/
structure BlockRec where
  blk : Block
  id : String
  has_children : Bool
deriving Repr, DecidableEq

/-- A response of the block-children listing endpoint. -/
structure ListResp where
  results : List BlockRec
  next_cursor : Option String
  has_more : Bool
deriving Repr, DecidableEq

/-- The block-children listing interface: block id and optional
`start_cursor` to response. -/
abbrev Iface : Type := String → Option String → ListResp

/-- Python truthiness of the loop's `cursor` variable: the next call passes
`start_cursor` exactly when the cursor is neither `None` nor empty. -/
def truthyCursor (cur : Option String) : Option String :=
  match cur with
  | some s => if s = "" then none else some s
  | none => none

/-- A call made to the listing interface: the block id and the
`start_cursor` argument passed (or `none` when omitted). -/
abbrev Call : Type := String × Option String

/-- The inner `while True` loop fetching one block's children (formatted at
`indent=2`).  Returns the formatted child lines and the log of listing
calls made, in order. -/
def childFetch (L : Iface) (cid : String) : Nat → Option String → Option (List String × List Call)
  | 0, _ => none
  | fuel + 1, cur =>
    let arg := truthyCursor cur
    let resp := L cid arg
    let lines := resp.results.map (fun cb => block_to_md cb.blk 2)
    if resp.has_more then
      match childFetch L cid fuel resp.next_cursor with
      | some (ls, cs) => some (lines ++ ls, (cid, arg) :: cs)
      | none => none
    else
      some (lines, [(cid, arg)])

/-- The per-block body of the outer loop: format the block, and when it
`has_children`, run a full child fetch and append the joined child lines
plus `"\n"` when any child line was produced. -/
def processBlock (L : Iface) (cf : Nat) (b : BlockRec) : Option (List String × List Call) :=
  let line := block_to_md b.blk 0
  if b.has_children then
    match childFetch L b.id cf none with
    | some (cls, ccs) =>
      if cls.isEmpty then some ([line], ccs)
      else some ([line, String.join cls ++ "\n"], ccs)
    | none => none
  else
    some ([line], [])

/-- Process the `results` array of one top-level response in order. -/
def processBlocks (L : Iface) (cf : Nat) : List BlockRec → Option (List String × List Call)
  | [] => some ([], [])
  | b :: rest =>
    match processBlock L cf b, processBlocks L cf rest with
    | some (ls1, cs1), some (ls2, cs2) => some (ls1 ++ ls2, cs1 ++ cs2)
    | _, _ => none

/-- The outer `while True` loop of `fetch_page_markdown`: one listing call
per iteration, following the continuation cursor until `has_more` is
falsy. -/
def topFetch (L : Iface) (cf : Nat) (pid : String) : Nat → Option String → Option (List String × List Call)
  | 0, _ => none
  | fuel + 1, cur =>
    let arg := truthyCursor cur
    let resp := L pid arg
    match processBlocks L cf resp.results with
    | none => none
    | some (ls, pcs) =>
      if resp.has_more then
        match topFetch L cf pid fuel resp.next_cursor with
        | some (ls2, cs2) => some (ls ++ ls2, ((pid, arg) :: pcs) ++ cs2)
        | none => none
      else
        some (ls, [((pid, arg) : Call)] ++ pcs)

/-- `fetch_page_markdown`: assemble the lines and apply the cleanup pass.
`cf` and `tf` are the fuels of the child and top loops. -/
def fetch_page_markdown (L : Iface) (cf tf : Nat) (pid : String) : Option String :=
  match topFetch L cf pid tf none with
  | some (ls, _) => some (cleanupMd (String.join ls))
  | none => none

/-- `serves L pid cur rs`: starting from loop cursor `cur`, the interface
answers the outer loop's successive calls with exactly the responses `rs`
(the last and only the last having a falsy `has_more`). -/
def serves (L : Iface) (pid : String) : Option String → List ListResp → Prop
  | _, [] => False
  | cur, r :: rest =>
    L pid (truthyCursor cur) = r ∧
    ((r.has_more = true ∧ serves L pid r.next_cursor rest) ∨
     (r.has_more = false ∧ rest = []))

/-- The sequence of calls the outer loop makes when served the chain `rs`. -/
def argChain (pid : String) : Option String → List ListResp → List Call
  | _, [] => []
  | cur, r :: rest => (pid, truthyCursor cur) :: argChain pid r.next_cursor rest

/-! ### Typed property values and the extractors (source lines 24-31, 59-111)

A page's `properties` dict maps names to typed values.  We model it as an
association list (Python dicts preserve insertion order, which the title
fallback scan relies on) over an inductive of the property shapes the
source reads.  In each constructor we keep exactly the payload the source
accesses:
* `title` keeps the `plain_text` of each item of the `title` array;
* `select` keeps `select.name`, with `none` for a null `select` object;
* `multi_select` keeps each option's optional `name` (`none` for a missing
  `name` key);
* `date` keeps `date.start`, with `none` when the `date` object is null or
  has no truthy `start` (the source treats those identically);
* `rich_text` keeps the `plain_text` of each item;
* `other` stands for any value of a different `type` tag (or a falsy
  value, which the source also rejects). -/

inductive PropVal where
  | title (texts : List String)
  | select (sel : Option String)
  | multi_select (opts : List (Option String))
  | date (start : Option String)
  | rich_text (texts : List String)
  | other
deriving Repr, DecidableEq

def PROP_TITLE : String := "Title"
def PROP_SLUG : String := "Slug"
def PROP_TAGS : String := "Tags"
def PROP_TYPE : String := "Type"
def PROP_DATE : String := "Date"

/-- Python `str.strip()` on a `String`. -/
def pyStrip (s : String) : String :=
  String.mk (pyStripWith pyIsSpace s.data)

/-- Fallback scan of `_get_title`: the first property whose type tag is
`title`, in insertion order. -/
def findTitle : List (String × PropVal) → Option (List String)
  | [] => none
  | (_, .title parts) :: _ => some parts
  | _ :: rest => findTitle rest

/-- `_get_title`: the `Title` property when it is title-typed, else the
first title-typed property, else `""`. -/
def get_title (props : List (String × PropVal)) : String :=
  match props.lookup PROP_TITLE with
  | some (.title parts) => pyStrip (String.join parts)
  | _ =>
    match findTitle props with
    | some parts => pyStrip (String.join parts)
    | none => ""

/-- `_get_select`. -/
def get_select (props : List (String × PropVal)) (key : String) : Option String :=
  match props.lookup key with
  | some (.select (some name)) => some name
  | _ => none

/-- The per-option filter of `_get_multiselect`: keep `x["name"]` only when
`x.get("name")` is truthy (present and non-empty). -/
def validName (o : Option String) : Option String :=
  match o with
  | some s => if s = "" then none else some s
  | none => none

/-- `_get_multiselect`. -/
def get_multiselect (props : List (String × PropVal)) (key : String) : List String :=
  match props.lookup key with
  | some (.multi_select opts) => opts.filterMap validName
  | _ => []

/-- `_get_date`: the first 10 characters of a truthy `date.start`. -/
def get_date (props : List (String × PropVal)) (key : String) : Option String :=
  match props.lookup key with
  | some (.date (some s)) => if s = "" then none else some (s.take 10)
  | _ => none

/-- `_get_slug`: explicit rich-text slug when present and non-blank,
otherwise slugified title. -/
def get_slug (props : List (String × PropVal)) (title : String) : String :=
  match props.lookup PROP_SLUG with
  | some (.rich_text texts) =>
    let s := pyStrip (String.join texts)
    if s ≠ "" then String.mk (safe_slug s.data) else String.mk (safe_slug title.data)
  | _ => String.mk (safe_slug title.data)

/-! ### `Post`, frontmatter (source lines 37-45, 233-251) -/

structure Post where
  page_id : String
  title : String
  slug : String
  date : String
  tags : List String
  type_ : Option String
  md_body : String
deriving Repr, DecidableEq

/-- Module constant; empty in the source configuration. -/
def DEFAULT_AUTHOR : String := ""

/-- Body of `make_frontmatter` with the `DEFAULT_AUTHOR` module constant
abstracted as the `author` argument. -/
def make_frontmatterWith (author : String) (p : Post) : String :=
  let tags_yaml :=
    if p.tags.isEmpty then "[]"
    else "[" ++ String.intercalate ", " (p.tags.map (fun t => "\"" ++ t ++ "\"")) ++ "]"
  let type_line :=
    match p.type_ with
    | some ty => if ty = "" then "" else "type: \"" ++ ty ++ "\"\n"
    | none => ""
  let author_line := if author = "" then "" else "author: \"" ++ author ++ "\"\n"
  "---\n" ++
    "title: \"" ++ p.title ++ "\"\n" ++
    "date: " ++ p.date ++ "\n" ++
    "draft: false\n" ++
    author_line ++
    type_line ++
    "tags: " ++ tags_yaml ++ "\n" ++
    "slug: \"" ++ p.slug ++ "\"\n" ++
    "---\n\n"

/-- `make_frontmatter`. -/
def make_frontmatter (p : Post) : String :=
  make_frontmatterWith DEFAULT_AUTHOR p

/-! ### The orchestrator `main` (source lines 283-336)

Environment credentials are the two `os.getenv` results; the query result,
the listing interface and the current UTC date are passed as parameters
(they come from the network and the clock).  File writes are collected as
`(path, content)` pairs; stdout and stderr as lists of printed lines.
The `HUGO_CONTENT_DIR.mkdir` side effect touches no data this model
tracks. -/

structure Env where
  token : Option String
  db_id : Option String

structure PageRec where
  id : String
  properties : List (String × PropVal)
deriving Repr, DecidableEq

structure MainResult where
  exitCode : Nat
  writes : List (String × String)
  outLog : List String
  errLog : List String
deriving Repr, DecidableEq

def HUGO_CONTENT_DIR : String := "site/content/posts"

def DRY_RUN : Bool := false

/-- Python truthiness of an optional string (`not token`). -/
def truthyStr (o : Option String) : Bool :=
  match o with
  | some s => s ≠ ""
  | none => false

/-- Python `x or y` for an optional string against a default. -/
def pyOrStr (o : Option String) (dflt : String) : String :=
  match o with
  | some s => if s = "" then dflt else s
  | none => dflt

/-- One iteration of the per-page loop of `main`: the writes it performs
(none on skip or dry-run, one otherwise) and the line it prints. -/
def processPage (L : Iface) (cf tf : Nat) (now : String) (pg : PageRec) :
    Option (List (String × String) × String) :=
  let props := pg.properties
  let title := get_title props
  if title = "" then
    some ([], "SKIP: no title (page_id=" ++ pg.id ++ ")")
  else
    let slug := get_slug props title
    let date := pyOrStr (get_date props PROP_DATE) now
    let tags := get_multiselect props PROP_TAGS
    let type_ := get_select props PROP_TYPE
    match fetch_page_markdown L cf tf pg.id with
    | none => none
    | some md_body =>
      let post : Post := ⟨pg.id, title, slug, date, tags, type_, md_body⟩
      let out_path := HUGO_CONTENT_DIR ++ "/" ++ post.slug ++ ".md"
      let content := make_frontmatter post ++ post.md_body
      if DRY_RUN then
        some ([], "\n--- " ++ out_path ++ " ---\n" ++ content.take 800 ++ "\n...")
      else
        some ([(out_path, content)], "Wrote: " ++ out_path)

/-- The per-page loop of `main`, returning the writes and the per-page log
lines, both in page order. -/
def processPages (L : Iface) (cf tf : Nat) (now : String) :
    List PageRec → Option (List (String × String) × List String)
  | [] => some ([], [])
  | pg :: rest =>
    match processPage L cf tf now pg, processPages L cf tf now rest with
    | some (w, msg), some (ws, ls) => some (w ++ ws, msg :: ls)
    | _, _ => none

/-- `main`: credential check, then query, then the per-page loop. -/
def mainModel (env : Env) (queryResult : List PageRec) (L : Iface) (cf tf : Nat)
    (now : String) : Option MainResult :=
  if !truthyStr env.token || !truthyStr env.db_id then
    some ⟨1, [], [], ["ERROR: NOTION_TOKEN / NOTION_DATABASE_ID 가 .env에 필요합니다."]⟩
  else
    match processPages L cf tf now queryResult with
    | none => none
    | some (ws, ls) =>
      some ⟨0, ws,
        ("Found " ++ toString queryResult.length ++ " ready GH post(s).") :: (ls ++ ["Done."]),
        []⟩

/-- The `(path, content)` pair `main` writes for a titled page (specification
artifact used to state the orchestrator theorems; `getD ""` is only reached
when the page's fetch succeeded). -/
def pageWrite (L : Iface) (cf tf : Nat) (now : String) (pg : PageRec) : String × String :=
  let props := pg.properties
  let title := get_title props
  let slug := get_slug props title
  let date := pyOrStr (get_date props PROP_DATE) now
  let tags := get_multiselect props PROP_TAGS
  let type_ := get_select props PROP_TYPE
  let md_body := (fetch_page_markdown L cf tf pg.id).getD ""
  let post : Post := ⟨pg.id, title, slug, date, tags, type_, md_body⟩
  (HUGO_CONTENT_DIR ++ "/" ++ post.slug ++ ".md", make_frontmatter post ++ post.md_body)

/-- A listing interface with no content (used for concrete instantiations). -/
def emptyIface : Iface := fun _ _ => ⟨[], none, false⟩

/-- A listing interface serving two pages of blocks chained by the cursor
`"c2"` (used for concrete instantiations). -/
def twoPageIface : Iface := fun _ cur =>
  match cur with
  | none => ⟨[⟨Block.paragraph [⟨"one", false, false, false, false, none⟩], "b1", false⟩],
      some "c2", true⟩
  | some _ => ⟨[⟨Block.paragraph [⟨"two", false, false, false, false, none⟩], "b2", false⟩],
      none, false⟩

/-! ## Theorems -/

/-! ### Lemmas about runs -/

theorem startsRun_iff (c : Char) :
    ∀ (k : Nat) (l : List Char),
      startsRun c k l = true ↔ ∃ t, l = List.replicate k c ++ t := by
  intro k
  induction k with
  | zero => intro l; simp [startsRun]
  | succ k ih =>
    intro l
    cases l with
    | nil =>
      constructor
      · intro h; simp [startsRun] at h
      · rintro ⟨t, ht⟩; rw [List.replicate_succ] at ht; simp at ht
    | cons x xs =>
      constructor
      · intro h
        simp only [startsRun, Bool.and_eq_true, decide_eq_true_eq] at h
        obtain ⟨rfl, h2⟩ := h
        obtain ⟨t, rfl⟩ := (ih xs).mp h2
        exact ⟨t, by rw [List.replicate_succ, List.cons_append]⟩
      · rintro ⟨t, ht⟩
        rw [List.replicate_succ, List.cons_append, List.cons.injEq] at ht
        obtain ⟨rfl, rfl⟩ := ht
        simp only [startsRun, Bool.and_eq_true, decide_eq_true_eq]
        exact ⟨by simp, (ih _).mpr ⟨t, rfl⟩⟩

theorem hasRun_iff (c : Char) (k : Nat) :
    ∀ l : List Char, hasRun c k l = true ↔ containsRun c k l := by
  intro l
  induction l with
  | nil =>
    simp only [hasRun, startsRun_iff c k, containsRun]
    constructor
    · rintro ⟨t, ht⟩
      exact ⟨[], t, by simpa using ht⟩
    · rintro ⟨a, b, h⟩
      have h1 : a = [] ∧ k = 0 ∧ b = [] := by simpa using h.symm
      obtain ⟨rfl, rfl, rfl⟩ := h1
      exact ⟨[], by simp⟩
  | cons x xs ih =>
    simp only [hasRun, Bool.or_eq_true, startsRun_iff c k, containsRun]
    constructor
    · rintro (⟨t, ht⟩ | h)
      · exact ⟨[], t, by simpa using ht⟩
      · rcases ih.mp h with ⟨a, b, rfl⟩
        exact ⟨x :: a, b, by simp⟩
    · rintro ⟨a, b, h⟩
      cases a with
      | nil => exact Or.inl ⟨b, by simpa using h⟩
      | cons y ys =>
        right
        apply ih.mpr
        refine ⟨ys, b, ?_⟩
        have h' : x :: xs = y :: (ys ++ (List.replicate k c ++ b)) := by
          simpa [List.append_assoc] using h
        have := (List.cons.injEq x xs y (ys ++ (List.replicate k c ++ b))).mp h'
        simpa [List.append_assoc] using this.2

theorem containsRun_length_le {c : Char} {k : Nat} {l : List Char}
    (h : containsRun c k l) : k ≤ l.length := by
  rcases h with ⟨a, b, rfl⟩
  simp only [List.length_append, List.length_replicate]
  omega

theorem hasRun_replicate_self_lt (c : Char) {j k : Nat} (h : j < k) :
    hasRun c k (List.replicate j c) = false := by
  cases hb : hasRun c k (List.replicate j c) with
  | false => rfl
  | true =>
    have hlen := containsRun_length_le ((hasRun_iff c k _).mp hb)
    simp only [List.length_replicate] at hlen
    omega

theorem startsRun_replicate_append_ne (c x : Char) (hx : x ≠ c) :
    ∀ (j k : Nat), j < k → ∀ t : List Char,
      startsRun c k (List.replicate j c ++ x :: t) = false := by
  intro j
  induction j with
  | zero =>
    intro k hk t
    cases k with
    | zero => omega
    | succ k => simp [startsRun, hx]
  | succ j ih =>
    intro k hk t
    cases k with
    | zero => omega
    | succ k =>
      simp only [List.replicate_succ, List.cons_append, startsRun, decide_eq_true_eq]
      have := ih k (by omega) t
      simp [this]

theorem hasRun_replicate_append_ne (c x : Char) (hx : x ≠ c) :
    ∀ (j k : Nat), j < k → ∀ t : List Char,
      hasRun c k (List.replicate j c ++ x :: t) = hasRun c k t := by
  intro j
  induction j with
  | zero =>
    intro k hk t
    cases k with
    | zero => omega
    | succ k => simp [hasRun, startsRun, hx]
  | succ j ih =>
    intro k hk t
    cases k with
    | zero => omega
    | succ k =>
      rw [List.replicate_succ, List.cons_append]
      show (startsRun c (k + 1) (c :: (List.replicate j c ++ x :: t)) ||
        hasRun c (k + 1) (List.replicate j c ++ x :: t)) = hasRun c (k + 1) t
      have h1 : startsRun c (k + 1) (c :: (List.replicate j c ++ x :: t)) = false := by
        simp only [startsRun, decide_eq_true_eq]
        have h0 := startsRun_replicate_append_ne c x hx j k (by omega) t
        simp [h0]
      have h3 : hasRun c (k + 1) (List.replicate j c ++ x :: t) = hasRun c (k + 1) t :=
        ih (k + 1) (by omega) t
      rw [h1, h3]
      simp

theorem hasRun_suffix_mono (c : Char) (k : Nat) (s t : List Char)
    (h : hasRun c k t = true) : hasRun c k (s ++ t) = true := by
  induction s with
  | nil => simpa using h
  | cons x xs ih =>
    simp only [List.cons_append, hasRun, Bool.or_eq_true]
    exact Or.inr ih

theorem hasRun_replicate_self_le (c : Char) {k n : Nat} (h : k ≤ n) :
    hasRun c k (List.replicate n c) = true := by
  refine (hasRun_iff c k _).mpr ⟨[], List.replicate (n - k) c, ?_⟩
  rw [List.nil_append, ← List.replicate_add]
  congr 1
  omega

/-- The collapsing pass leaves no run of more than `m` copies of `c`. -/
theorem hasRun_collapseRunsAux (c : Char) (m : Nat) :
    ∀ (l : List Char) (n : Nat),
      hasRun c (m + 1) (collapseRunsAux c m n l) = false := by
  intro l
  induction l with
  | nil =>
    intro n
    exact hasRun_replicate_self_lt c (by omega : min n m < m + 1)
  | cons x xs ih =>
    intro n
    by_cases hx : x = c
    · simp only [collapseRunsAux, if_pos hx]
      exact ih (n + 1)
    · simp only [collapseRunsAux, if_neg hx]
      rw [hasRun_replicate_append_ne c x hx (min n m) (m + 1) (by omega) _]
      exact ih 0

theorem hasRun_collapseRuns (c : Char) (m : Nat) (l : List Char) :
    hasRun c (m + 1) (collapseRuns c m l) = false :=
  hasRun_collapseRunsAux c m l 0

/-- On input with no over-long run, the collapsing pass is the identity. -/
theorem collapseRunsAux_eq_self (c : Char) (m : Nat) :
    ∀ (l : List Char) (n : Nat),
      hasRun c (m + 1) (List.replicate n c ++ l) = false →
      collapseRunsAux c m n l = List.replicate n c ++ l := by
  intro l
  induction l with
  | nil =>
    intro n h
    have hn : n ≤ m := by
      by_contra hc
      rw [List.append_nil] at h
      rw [hasRun_replicate_self_le c (by omega : m + 1 ≤ n)] at h
      exact absurd h (by simp)
    simp [collapseRunsAux, Nat.min_eq_left hn]
  | cons x xs ih =>
    intro n h
    by_cases hx : x = c
    · have hstep : collapseRunsAux c m n (x :: xs) = collapseRunsAux c m (n + 1) xs := by
        simp [collapseRunsAux, hx]
      have hl : List.replicate (n + 1) c ++ xs = List.replicate n c ++ x :: xs := by
        rw [List.replicate_succ']
        simp [hx]
      rw [hstep, ih (n + 1) (by rw [hl]; exact h), hl]
    · have hn : n ≤ m := by
        by_contra hc
        have h1 : hasRun c (m + 1) (List.replicate n c ++ x :: xs) = true := by
          refine (hasRun_iff c (m + 1) _).mpr ⟨[], List.replicate (n - (m + 1)) c ++ x :: xs, ?_⟩
          rw [List.nil_append, ← List.append_assoc, ← List.replicate_add]
          congr 2
          omega
        rw [h1] at h
        exact absurd h (by simp)
      have hxs : hasRun c (m + 1) xs = false := by
        rw [hasRun_replicate_append_ne c x hx n (m + 1) (by omega) xs] at h
        exact h
      simp only [collapseRunsAux, if_neg hx, Nat.min_eq_left hn]
      rw [ih 0 (by simpa using hxs)]
      simp

theorem collapseRuns_eq_self (c : Char) (m : Nat) (l : List Char)
    (h : hasRun c (m + 1) l = false) : collapseRuns c m l = l := by
  have := collapseRunsAux_eq_self c m l 0 (by simpa using h)
  simpa [collapseRuns] using this

/-- Characters of the collapsed list come from the input (or are the run char). -/
theorem mem_collapseRunsAux (c : Char) (m : Nat) :
    ∀ (l : List Char) (n : Nat) (x : Char),
      x ∈ collapseRunsAux c m n l → x = c ∨ x ∈ l := by
  intro l
  induction l with
  | nil =>
    intro n x hx
    exact Or.inl (List.eq_of_mem_replicate hx)
  | cons y ys ih =>
    intro n x hx
    by_cases hy : y = c
    · simp only [collapseRunsAux, if_pos hy] at hx
      rcases ih (n + 1) x hx with h | h
      · exact Or.inl h
      · exact Or.inr (List.mem_cons_of_mem y h)
    · simp only [collapseRunsAux, if_neg hy, List.mem_append, List.mem_cons] at hx
      rcases hx with h | h | h
      · exact Or.inl (List.eq_of_mem_replicate h)
      · exact Or.inr (h ▸ List.mem_cons_self y ys)
      · rcases ih 0 x h with h' | h'
        · exact Or.inl h'
        · exact Or.inr (List.mem_cons_of_mem y h')

/-! ### Lemmas about two-sided strip -/

theorem dropWhile_head_false (p : Char → Bool) :
    ∀ (l : List Char) (x : Char) (t : List Char),
      l.dropWhile p = x :: t → p x = false := by
  intro l
  induction l with
  | nil => intro x t h; simp [List.dropWhile] at h
  | cons y ys ih =>
    intro x t h
    rw [List.dropWhile_cons] at h
    by_cases hy : p y = true
    · rw [if_pos hy] at h
      exact ih x t h
    · rw [if_neg hy] at h
      obtain ⟨rfl, -⟩ := List.cons.injEq .. ▸ h
      simpa using hy

theorem dropWhile_eq_self_of_head (p : Char → Bool) (l : List Char)
    (h : ∀ x t, l = x :: t → p x = false) : l.dropWhile p = l := by
  cases l with
  | nil => rfl
  | cons y ys =>
    rw [List.dropWhile_cons, if_neg (by simp [h y ys rfl])]

/-- The stripped list sits in the middle of the original. -/
theorem pyStripWith_decomp (p : Char → Bool) (l : List Char) :
    ∃ u v, l = u ++ pyStripWith p l ++ v := by
  refine ⟨l.takeWhile p, ((l.dropWhile p).reverse.takeWhile p).reverse, ?_⟩
  conv_lhs => rw [← List.takeWhile_append_dropWhile (p := p) (l := l)]
  rw [List.append_assoc]
  congr 1
  have h2 : ((l.dropWhile p).reverse.takeWhile p) ++ ((l.dropWhile p).reverse.dropWhile p)
      = (l.dropWhile p).reverse := List.takeWhile_append_dropWhile p (l.dropWhile p).reverse
  calc l.dropWhile p = (l.dropWhile p).reverse.reverse := (List.reverse_reverse _).symm
    _ = (((l.dropWhile p).reverse.takeWhile p) ++ ((l.dropWhile p).reverse.dropWhile p)).reverse := by
        rw [h2]
    _ = pyStripWith p l ++ ((l.dropWhile p).reverse.takeWhile p).reverse := by
        rw [List.reverse_append]; rfl

/-- The head of the stripped list does not satisfy `p`. -/
theorem pyStripWith_head (p : Char → Bool) (l : List Char) (x : Char) (t : List Char)
    (h : pyStripWith p l = x :: t) : p x = false := by
  have hpre : ∃ w, l.dropWhile p = pyStripWith p l ++ w := by
    refine ⟨((l.dropWhile p).reverse.takeWhile p).reverse, ?_⟩
    have h2 : ((l.dropWhile p).reverse.takeWhile p) ++ ((l.dropWhile p).reverse.dropWhile p)
        = (l.dropWhile p).reverse := List.takeWhile_append_dropWhile p (l.dropWhile p).reverse
    calc l.dropWhile p = (l.dropWhile p).reverse.reverse := (List.reverse_reverse _).symm
      _ = (((l.dropWhile p).reverse.takeWhile p) ++ ((l.dropWhile p).reverse.dropWhile p)).reverse := by
          rw [h2]
      _ = pyStripWith p l ++ ((l.dropWhile p).reverse.takeWhile p).reverse := by
          rw [List.reverse_append]; rfl
  rcases hpre with ⟨w, hw⟩
  rw [h] at hw
  exact dropWhile_head_false p l x (t ++ w) (by simpa using hw)

/-- The last element of the stripped list does not satisfy `p`. -/
theorem pyStripWith_getLast (p : Char → Bool) (l : List Char) (x : Char)
    (h : (pyStripWith p l).getLast? = some x) : p x = false := by
  unfold pyStripWith at h
  rw [List.getLast?_reverse] at h
  cases hd : (l.dropWhile p).reverse.dropWhile p with
  | nil => rw [hd] at h; simp at h
  | cons y ys =>
    rw [hd] at h
    simp only [List.head?_cons, Option.some.injEq] at h
    rw [← h]
    exact dropWhile_head_false p _ y ys hd

/-- Stripping is the identity when neither end satisfies `p`. -/
theorem pyStripWith_eq_self (p : Char → Bool) (l : List Char)
    (hh : ∀ x t, l = x :: t → p x = false)
    (hl : ∀ x, l.getLast? = some x → p x = false) : pyStripWith p l = l := by
  have hrev : ∀ x t, l.reverse = x :: t → p x = false := by
    intro x t h
    apply hl
    have h1 : l.reverse.head? = some x := by rw [h]; rfl
    rwa [List.head?_reverse] at h1
  unfold pyStripWith
  rw [dropWhile_eq_self_of_head p l hh,
    dropWhile_eq_self_of_head p l.reverse hrev, List.reverse_reverse]

/-! ### `containsRun` transport -/

theorem containsRun_of_middle {c : Char} {k : Nat} {mdl l : List Char}
    (hm : containsRun c k mdl) (u v : List Char) (h : l = u ++ mdl ++ v) :
    containsRun c k l := by
  rcases hm with ⟨a, b, rfl⟩
  exact ⟨u ++ a, b ++ v, by simp [h, List.append_assoc]⟩

theorem not_containsRun_append_singleton {c : Char} {k : Nat} {s : List Char}
    (hk : 2 ≤ k) (hlast : s.getLast? ≠ some c) (hs : ¬ containsRun c k s) :
    ¬ containsRun c k (s ++ [c]) := by
  rintro ⟨a, b, h⟩
  rcases List.eq_nil_or_concat b with rfl | ⟨b', y, rfl⟩
  · have hrep : List.replicate k c = (List.replicate (k - 2) c ++ [c]) ++ [c] := by
      rw [List.append_assoc,
        show ([c] ++ [c] : List Char) = List.replicate 2 c from rfl,
        ← List.replicate_add]
      congr 1
      omega
    rw [List.append_nil, hrep] at h
    have hlen : s.length = (a ++ (List.replicate (k - 2) c ++ [c])).length := by
      have := congrArg List.length h
      simp only [List.length_append, List.length_replicate, List.length_cons,
        List.length_nil] at this ⊢
      omega
    have h' : s ++ [c] = (a ++ (List.replicate (k - 2) c ++ [c])) ++ [c] := by
      rw [h]; simp [List.append_assoc]
    obtain ⟨rfl, -⟩ := List.append_inj h' hlen
    apply hlast
    rw [show a ++ (List.replicate (k - 2) c ++ [c]) = (a ++ List.replicate (k - 2) c) ++ [c] by
      simp [List.append_assoc]]
    exact List.getLast?_concat _
  · have h' : s ++ [c] = (a ++ List.replicate k c ++ b') ++ [y] := by
      rw [h]; simp [List.append_assoc]
    have hlen : s.length = (a ++ List.replicate k c ++ b').length := by
      have := congrArg List.length h'
      simp only [List.length_append, List.length_replicate, List.length_cons,
        List.length_nil] at this ⊢
      omega
    obtain ⟨rfl, -⟩ := List.append_inj h' hlen
    exact hs ⟨a, b', rfl⟩


theorem map_id_of_mem {α : Type} (f : α → α) :
    ∀ l : List α, (∀ x ∈ l, f x = x) → l.map f = l := by
  intro l
  induction l with
  | nil => intro _; rfl
  | cons x xs ih =>
    intro h
    simp only [List.map_cons]
    rw [h x (List.mem_cons_self x xs), ih (fun y hy => h y (List.mem_cons_of_mem x hy))]

theorem stringJoin_cons (s : String) (l : List String) :
    String.join (s :: l) = s ++ String.join l := by
  apply String.ext
  simp [String.data_join]

/-- C1: `_rt_to_md` formats the spans in order and concatenates the results
(empty input giving `""`), and each span is wrapped innermost-first in the
order code (backticks), bold (`**`), italic (`*`), strikethrough (`~~`),
and finally, when a link target is present, Markdown link syntax. -/
theorem claim_C1_rt_to_md :
    rt_to_md [] = "" ∧
    (∀ (s : Span) (rest : List Span), rt_to_md (s :: rest) = spanToMd s ++ rt_to_md rest) ∧
    (∀ s : Span, spanToMd s =
      applyLink s.href
        (applyWrap s.strikethrough "~~"
          (applyWrap s.italic "*"
            (applyWrap s.bold "**"
              (applyWrap s.code "`" s.plain_text))))) := by
  refine ⟨rfl, ?_, ?_⟩
  · intro s rest
    exact stringJoin_cons (spanToMd s) (rest.map spanToMd)
  · intro s
    rfl

/-- C4: the exact fragments of `_block_to_md` for a heading-2 `"Hello"`, an
unrecognized kind, and a checked todo `"Buy milk"`. -/
theorem claim_C4_block_fragments :
    block_to_md (.heading_2 [⟨"Hello", false, false, false, false, none⟩]) 0 = "## Hello\n\n" ∧
    (∀ tag : Option String, block_to_md (.other tag) 0 = "") ∧
    (∃ a b : String,
      block_to_md (.to_do [⟨"Buy milk", false, false, false, false, none⟩] true) 0 =
        a ++ "- [x] Buy milk" ++ b) := by
  refine ⟨by decide, fun tag => rfl, "", "\n", by decide⟩

/-- C5: `_block_to_md` is a total function into strings — every block record,
including one with an unrecognized or absent kind tag, is mapped to a string
(never an error), and every unrecognized-or-absent tag yields `""`. -/
theorem claim_C5_block_total :
    (∀ (b : Block) (ind : Nat), ∃ s : String, block_to_md b ind = s) ∧
    (∀ (tag : Option String) (ind : Nat), block_to_md (.other tag) ind = "") :=
  ⟨fun b ind => ⟨block_to_md b ind, rfl⟩, fun _ _ => rfl⟩

/-- C9: `make_frontmatter` emits the fields in the fixed order title, date,
`draft: false`, author (only when a default author is configured), type
(only when present and non-empty), tags as a bracketed list of double-quoted
names (`[]` when empty), then slug; the source configuration instantiates
the author constant with `DEFAULT_AUTHOR`. -/
theorem claim_C9_frontmatter_order (a : String) (p : Post) :
    make_frontmatterWith a p =
      "---\n" ++
      "title: \"" ++ p.title ++ "\"\n" ++
      "date: " ++ p.date ++ "\n" ++
      "draft: false\n" ++
      (if a = "" then "" else "author: \"" ++ a ++ "\"\n") ++
      (match p.type_ with
        | some ty => if ty = "" then "" else "type: \"" ++ ty ++ "\"\n"
        | none => "") ++
      "tags: " ++
      (if p.tags = [] then "[]"
       else "[" ++ String.intercalate ", " (p.tags.map (fun t => "\"" ++ t ++ "\"")) ++ "]") ++
      "\n" ++
      "slug: \"" ++ p.slug ++ "\"\n" ++
      "---\n\n" ∧
    make_frontmatter p = make_frontmatterWith DEFAULT_AUTHOR p := by
  constructor
  · cases htags : p.tags with
    | nil => simp [make_frontmatterWith, htags, String.append_assoc]
    | cons t ts => simp [make_frontmatterWith, htags, String.append_assoc]
  · rfl

/-- C10: `_get_multiselect` returns the option names in source order keeping
duplicates, drops options with a missing or empty name, and returns `[]`
when the property is absent or not multi-select typed. -/
theorem claim_C10_multiselect (props : List (String × PropVal)) (key : String) :
    (props.lookup key = none → get_multiselect props key = []) ∧
    (∀ pv, props.lookup key = some pv → (∀ opts, pv ≠ PropVal.multi_select opts) →
      get_multiselect props key = []) ∧
    (∀ opts, props.lookup key = some (.multi_select opts) →
      get_multiselect props key = opts.filterMap validName) ∧
    (∀ opts, List.filterMap validName (none :: opts) = List.filterMap validName opts) ∧
    (∀ opts, List.filterMap validName (some "" :: opts) = List.filterMap validName opts) ∧
    (∀ s opts, s ≠ "" →
      List.filterMap validName (some s :: opts) = s :: List.filterMap validName opts) ∧
    (∀ names : List String, (∀ s ∈ names, s ≠ "") →
      List.filterMap validName (names.map some) = names) := by
  refine ⟨?_, ?_, ?_, ?_, ?_, ?_, ?_⟩
  · intro h; simp [get_multiselect, h]
  · intro pv h hne
    cases pv with
    | multi_select opts => exact absurd rfl (hne opts)
    | title texts => simp [get_multiselect, h]
    | select sel => simp [get_multiselect, h]
    | date start => simp [get_multiselect, h]
    | rich_text texts => simp [get_multiselect, h]
    | other => simp [get_multiselect, h]
  · intro opts h; simp [get_multiselect, h]
  · intro opts; simp [List.filterMap_cons, validName]
  · intro opts; simp [List.filterMap_cons, validName]
  · intro s opts hs; simp [List.filterMap_cons, validName, hs]
  · intro names
    induction names with
    | nil => intro _; rfl
    | cons s rest ih =>
      intro h
      have hs : s ≠ "" := h s (List.mem_cons_self s rest)
      simp only [List.map_cons, List.filterMap_cons, validName, if_neg hs]
      rw [ih (fun y hy => h y (List.mem_cons_of_mem s hy))]

/-! ### Claim C2: the slugifier -/

theorem asciiToLower_eq_self_of_slugAllowed (c : Char) (h : slugAllowed c = true) :
    asciiToLower c = c := by
  have h' : ¬ ((65 ≤ c.toNat && c.toNat ≤ 90) = true) := by
    simp only [slugAllowed, Bool.or_eq_true, Bool.and_eq_true, decide_eq_true_eq] at h
    simp only [Bool.and_eq_true, decide_eq_true_eq, not_and]
    omega
  rw [asciiToLower, if_neg h']

theorem slugifyMap_idem (c : Char) : slugifyMap (slugifyMap c) = slugifyMap c := by
  by_cases h : slugAllowed (asciiToLower c) = true
  · have h1 : slugifyMap c = asciiToLower c := by rw [slugifyMap, if_pos h]
    rw [h1, slugifyMap, asciiToLower_eq_self_of_slugAllowed _ h, if_pos h]
  · have h1 : slugifyMap c = '-' := by rw [slugifyMap, if_neg h]
    rw [h1]
    decide

theorem mem_pyStripWith (p : Char → Bool) (l : List Char) (x : Char)
    (h : x ∈ pyStripWith p l) : x ∈ l := by
  obtain ⟨u, v, hl⟩ := pyStripWith_decomp p l
  rw [hl]
  exact List.mem_append.mpr (Or.inl (List.mem_append.mpr (Or.inr h)))

theorem hasRun_pyStripWith_false (c : Char) (k : Nat) (p : Char → Bool) (l : List Char)
    (h : hasRun c k l = false) : hasRun c k (pyStripWith p l) = false := by
  cases hb : hasRun c k (pyStripWith p l) with
  | false => rfl
  | true =>
    obtain ⟨u, v, hl⟩ := pyStripWith_decomp p l
    have hcl : containsRun c k l :=
      containsRun_of_middle ((hasRun_iff c k _).mp hb) u v hl
    have htrue := (hasRun_iff c k l).mpr hcl
    rw [h] at htrue
    exact Bool.noConfusion htrue

/-- Every character of the slug pipeline's output is a `slugifyMap` fixed
point. -/
theorem slugCore_fixed (t : List Char) (x : Char) (hx : x ∈ slugCore t) :
    slugifyMap x = x := by
  have h1 : x ∈ collapseRunsAux '-' 1 0 (slugify t) := mem_pyStripWith _ _ _ hx
  rcases mem_collapseRunsAux '-' 1 (slugify t) 0 x h1 with rfl | h2
  · decide
  · have h2' : x ∈ pyStripWith isDash (collapseRuns '-' 1 (t.map slugifyMap)) := h2
    have h3 : x ∈ collapseRunsAux '-' 1 0 (t.map slugifyMap) := mem_pyStripWith _ _ _ h2'
    rcases mem_collapseRunsAux '-' 1 (t.map slugifyMap) 0 x h3 with rfl | h4
    · decide
    · obtain ⟨y, -, rfl⟩ := List.mem_map.mp h4
      exact slugifyMap_idem y

/-- On a list that is already in slug shape, `_safe_slug` is the identity. -/
theorem safe_slug_eq_self (l : List Char)
    (hfix : ∀ x ∈ l, slugifyMap x = x)
    (hrun : hasRun '-' 2 l = false)
    (hhead : ∀ x t, l = x :: t → isDash x = false)
    (hlast : ∀ x, l.getLast? = some x → isDash x = false)
    (hne : l ≠ []) :
    safe_slug l = l := by
  have hmap : l.map slugifyMap = l := map_id_of_mem _ l hfix
  have hcol : collapseRuns '-' 1 l = l := collapseRuns_eq_self '-' 1 l hrun
  have hstrip : pyStripWith isDash l = l := pyStripWith_eq_self isDash l hhead hlast
  have hslug : slugify l = l := by
    rw [slugify, hmap, hcol, hstrip]
  have hcore : slugCore l = l := by
    rw [slugCore, hslug, hcol, hstrip]
  rw [safe_slug, hcore, if_neg hne]

/-- C2: `_safe_slug` is idempotent, never empty, contains no two consecutive
hyphens, no leading or trailing hyphen, and returns the fixed placeholder
`"untitled"` when slugification yields an empty string. -/
theorem claim_C2_safe_slug (title : List Char) :
    safe_slug (safe_slug title) = safe_slug title ∧
    safe_slug title ≠ [] ∧
    hasRun '-' 2 (safe_slug title) = false ∧
    (∀ x t, safe_slug title = x :: t → x ≠ '-') ∧
    (∀ x, (safe_slug title).getLast? = some x → x ≠ '-') ∧
    (slugCore title = [] → safe_slug title = "untitled".data) := by
  by_cases hempty : slugCore title = []
  · have hs : safe_slug title = "untitled".data := by rw [safe_slug, if_pos hempty]
    refine ⟨?_, ?_, ?_, ?_, ?_, fun _ => hs⟩
    · rw [hs]
      apply safe_slug_eq_self
      · intro x hx
        fin_cases hx <;> decide
      · decide
      · intro x t h
        have h2 : some 'u' = some x := congrArg List.head? h
        rw [← Option.some.inj h2]
        decide
      · intro x h
        have h2 : some 'd' = some x := h
        rw [← Option.some.inj h2]
        decide
      · decide
    · rw [hs]; decide
    · rw [hs]; decide
    · rw [hs]
      intro x t h
      have h2 : some 'u' = some x := congrArg List.head? h
      rw [← Option.some.inj h2]
      decide
    · rw [hs]
      intro x h
      have h2 : some 'd' = some x := h
      rw [← Option.some.inj h2]
      decide
  · have hs : safe_slug title = slugCore title := by rw [safe_slug, if_neg hempty]
    have hrun : hasRun '-' 2 (slugCore title) = false :=
      hasRun_pyStripWith_false '-' 2 isDash _ (hasRun_collapseRuns '-' 1 (slugify title))
    have hhead : ∀ x t, slugCore title = x :: t → isDash x = false := by
      intro x t h
      exact pyStripWith_head isDash _ x t h
    have hlast : ∀ x, (slugCore title).getLast? = some x → isDash x = false := by
      intro x h
      exact pyStripWith_getLast isDash _ x h
    refine ⟨?_, ?_, ?_, ?_, ?_, fun h => absurd h hempty⟩
    · rw [hs]
      exact safe_slug_eq_self _ (slugCore_fixed title) hrun hhead hlast hempty
    · rw [hs]; exact hempty
    · rw [hs]; exact hrun
    · rw [hs]
      intro x t h
      have := hhead x t h
      simpa [isDash] using this
    · rw [hs]
      intro x h
      have := hlast x h
      simpa [isDash] using this

/-! ### Claim C3: markdown cleanup in `fetch_page_markdown` -/

theorem collapseRunsAux_replicate (c : Char) (m : Nat) :
    ∀ (n k : Nat), collapseRunsAux c m k (List.replicate n c) = List.replicate (min (k + n) m) c := by
  intro n
  induction n with
  | zero => intro k; simp [collapseRunsAux]
  | succ n ih =>
    intro k
    rw [List.replicate_succ]
    have hstep : collapseRunsAux c m k (c :: List.replicate n c) =
        collapseRunsAux c m (k + 1) (List.replicate n c) := by
      simp [collapseRunsAux]
    rw [hstep, ih (k + 1)]
    congr 1
    omega

/-- Properties of the cleanup pass applied to any assembled body. -/
theorem cleanupChars_spec (l : List Char) :
    hasRun '\n' 4 (cleanupChars l) = false ∧
    (cleanupChars l).getLast? = some '\n' ∧
    (∀ x, (cleanupChars l).dropLast.getLast? = some x → pyIsSpace x = false) ∧
    (∀ x t, (cleanupChars l).dropLast = x :: t → pyIsSpace x = false) := by
  have hsrun : hasRun '\n' 4 (pyStripWith pyIsSpace (collapseRuns '\n' 3 l)) = false :=
    hasRun_pyStripWith_false '\n' 4 pyIsSpace _ (hasRun_collapseRuns '\n' 3 l)
  have hslast : (pyStripWith pyIsSpace (collapseRuns '\n' 3 l)).getLast? ≠ some '\n' := by
    intro h
    have := pyStripWith_getLast pyIsSpace _ '\n' h
    exact Bool.noConfusion ((by decide : pyIsSpace '\n' = true) ▸ this)
  have hdrop : (cleanupChars l).dropLast = pyStripWith pyIsSpace (collapseRuns '\n' 3 l) :=
    List.dropLast_concat ..
  refine ⟨?_, List.getLast?_concat _, ?_, ?_⟩
  · cases hb : hasRun '\n' 4 (cleanupChars l) with
    | false => rfl
    | true =>
      have hcontains := (hasRun_iff '\n' 4 _).mp hb
      have hnot := not_containsRun_append_singleton (by omega : 2 ≤ 4) hslast
        (fun hc => Bool.noConfusion (hsrun ▸ (hasRun_iff '\n' 4 _).mpr hc))
      exact absurd hcontains hnot
  · intro x h
    rw [hdrop] at h
    exact pyStripWith_getLast pyIsSpace _ x h
  · intro x t h
    rw [hdrop] at h
    exact pyStripWith_head pyIsSpace _ x t h

/-- C3: every body returned by `fetch_page_markdown` has its runs of four or
more newlines collapsed to exactly three, is stripped of leading and
trailing whitespace, and ends with exactly one trailing newline. -/
theorem claim_C3_cleanup (L : Iface) (cf tf : Nat) (pid : String) (md : String)
    (h : fetch_page_markdown L cf tf pid = some md) (n : Nat) (hn : 4 ≤ n) :
    collapseRuns '\n' 3 (List.replicate n '\n') = List.replicate 3 '\n' ∧
    hasRun '\n' 4 md.data = false ∧
    md.data.getLast? = some '\n' ∧
    (∀ x, md.data.dropLast.getLast? = some x → pyIsSpace x = false) ∧
    (∀ x t, md.data.dropLast = x :: t → pyIsSpace x = false) := by
  obtain ⟨l, hl⟩ : ∃ l, md.data = cleanupChars l := by
    unfold fetch_page_markdown at h
    cases htf : topFetch L cf pid tf none with
    | none => rw [htf] at h; exact absurd h (by simp)
    | some pr =>
      rw [htf] at h
      refine ⟨(String.join pr.1).data, ?_⟩
      have : cleanupMd (String.join pr.1) = md := by
        cases pr with
        | mk ls cs => exact Option.some.inj h
      rw [← this]
      rfl
  have hcol : collapseRuns '\n' 3 (List.replicate n '\n') = List.replicate 3 '\n' := by
    have := collapseRunsAux_replicate '\n' 3 n 0
    rw [collapseRuns, this]
    congr 1
    omega
  have hspec := cleanupChars_spec l
  rw [hl]
  exact ⟨hcol, hspec.1, hspec.2.1, hspec.2.2.1, hspec.2.2.2⟩

/-- Concrete instantiation of `claim_C3_cleanup`: a run of 5 newlines
collapses to 3, and an assembled body ends with exactly one newline. -/
theorem claim_C3_witness :
    collapseRuns '\n' 3 (List.replicate 5 '\n') = List.replicate 3 '\n' ∧
    hasRun '\n' 4 ("\n" : String).data = false ∧
    (("\n" : String).data.getLast? = some '\n') := by
  have h := claim_C3_cleanup emptyIface 1 1 "p" "\n" (by decide) 5 (by decide)
  exact ⟨h.1, h.2.1, h.2.2.1⟩

/-! ### Claim C6: cursor pagination in `fetch_page_markdown` -/

theorem processBlocks_no_children (L : Iface) (cf : Nat) :
    ∀ bs : List BlockRec, (∀ b ∈ bs, b.has_children = false) →
      processBlocks L cf bs = some (bs.map (fun b => block_to_md b.blk 0), []) := by
  intro bs
  induction bs with
  | nil => intro _; rfl
  | cons b rest ih =>
    intro h
    have hb : b.has_children = false := h b (List.mem_cons_self b rest)
    have hrest := ih (fun y hy => h y (List.mem_cons_of_mem b hy))
    simp [processBlocks, processBlock, hb, hrest]

/-- C6: against any interface serving a cursor-chained sequence of response
pages (the last and only the last with a falsy has-more flag), the fetch
loop issues exactly one listing call per response page, following the
continuation cursor, and concatenates the formatted blocks in batch-and-
block order; with fuel equal to the page count it terminates with exactly
those calls. -/
theorem claim_C6_pagination (L : Iface) (pid : String) (cf : Nat) :
    ∀ (rs : List ListResp) (cur : Option String),
      serves L pid cur rs →
      (∀ r ∈ rs, ∀ b ∈ r.results, b.has_children = false) →
      topFetch L cf pid rs.length cur =
        some ((rs.map (fun r => r.results.map (fun b => block_to_md b.blk 0))).flatten,
              argChain pid cur rs) ∧
      (argChain pid cur rs).length = rs.length ∧
      (cur = none →
        fetch_page_markdown L cf rs.length pid =
          some (cleanupMd (String.join
            ((rs.map (fun r => r.results.map (fun b => block_to_md b.blk 0))).flatten)))) := by
  intro rs
  induction rs with
  | nil =>
    intro cur hserves _
    exact absurd hserves (by simp [serves])
  | cons r rest ih =>
    intro cur hserves hnc
    obtain ⟨hL, hbranch⟩ := hserves
    have hncr : ∀ b ∈ r.results, b.has_children = false := hnc r (List.mem_cons_self r rest)
    have hpb := processBlocks_no_children L cf r.results hncr
    rcases hbranch with ⟨hmore, hrest⟩ | ⟨hmore, rfl⟩
    · have ihr := ih r.next_cursor hrest (fun y hy => hnc y (List.mem_cons_of_mem r hy))
      have htop : topFetch L cf pid (r :: rest).length cur =
          some (((r :: rest).map (fun r => r.results.map (fun b => block_to_md b.blk 0))).flatten,
                argChain pid cur (r :: rest)) := by
        show topFetch L cf pid (rest.length + 1) cur = _
        simp only [topFetch, hL, hpb, hmore, if_true, ihr.1]
        simp [argChain]
      refine ⟨htop, ?_, ?_⟩
      · simp [argChain, ihr.2.1]
      · intro hcur
        subst hcur
        rw [fetch_page_markdown, htop]
    · have htop : topFetch L cf pid ([r]).length cur =
          some (([r].map (fun r => r.results.map (fun b => block_to_md b.blk 0))).flatten,
                argChain pid cur [r]) := by
        show topFetch L cf pid 1 cur = _
        simp only [topFetch, hL, hpb, hmore]
        simp [argChain]
      refine ⟨htop, by simp [argChain], ?_⟩
      intro hcur
      subst hcur
      rw [fetch_page_markdown, htop]

/-- Concrete instantiation of `claim_C6_pagination`: a source returning 2
pages of blocks causes exactly 2 listing calls, concatenated in order. -/
theorem claim_C6_witness :
    topFetch twoPageIface 1 "p" 2 none =
      some ([block_to_md (Block.paragraph [⟨"one", false, false, false, false, none⟩]) 0,
             block_to_md (Block.paragraph [⟨"two", false, false, false, false, none⟩]) 0],
            [("p", none), ("p", some "c2")]) ∧
    ([("p", (none : Option String)), ("p", some "c2")] : List Call).length = 2 := by
  have h := claim_C6_pagination twoPageIface "p" 1
    [⟨[⟨Block.paragraph [⟨"one", false, false, false, false, none⟩], "b1", false⟩],
        some "c2", true⟩,
     ⟨[⟨Block.paragraph [⟨"two", false, false, false, false, none⟩], "b2", false⟩],
        none, false⟩]
    none
    ⟨rfl, Or.inl ⟨rfl, ⟨rfl, Or.inr ⟨rfl, rfl⟩⟩⟩⟩
    (by decide)
  constructor
  · rw [show (2 : Nat) =
      ([⟨[⟨Block.paragraph [⟨"one", false, false, false, false, none⟩], "b1", false⟩],
          some "c2", true⟩,
        ⟨[⟨Block.paragraph [⟨"two", false, false, false, false, none⟩], "b2", false⟩],
          none, false⟩] : List ListResp).length from rfl, h.1]
    decide
  · decide

/-! ### Claims C7 and C8: the orchestrator -/

theorem processPage_skip (L : Iface) (cf tf : Nat) (now : String) (pg : PageRec)
    (htitle : get_title pg.properties = "") :
    processPage L cf tf now pg = some ([], "SKIP: no title (page_id=" ++ pg.id ++ ")") := by
  rw [processPage]
  simp [htitle]

theorem processPage_write (L : Iface) (cf tf : Nat) (now : String) (pg : PageRec)
    (htitle : get_title pg.properties ≠ "") (md : String)
    (hmd : fetch_page_markdown L cf tf pg.id = some md) :
    processPage L cf tf now pg =
      some ([pageWrite L cf tf now pg], "Wrote: " ++ (pageWrite L cf tf now pg).1) := by
  rw [processPage, pageWrite]
  simp only [if_neg htitle, hmd, DRY_RUN, Bool.false_eq_true, if_false, Option.getD_some]

theorem processPages_spec (L : Iface) (cf tf : Nat) (now : String) :
    ∀ (pages : List PageRec) (ws : List (String × String)) (ls : List String),
      processPages L cf tf now pages = some (ws, ls) →
      ws = (pages.filter (fun pg => get_title pg.properties ≠ "")).map (pageWrite L cf tf now) ∧
      (∀ pg ∈ pages, get_title pg.properties = "" →
        ("SKIP: no title (page_id=" ++ pg.id ++ ")") ∈ ls) := by
  intro pages
  induction pages with
  | nil =>
    intro ws ls h
    simp only [processPages, Option.some.injEq, Prod.mk.injEq] at h
    obtain ⟨rfl, rfl⟩ := h
    exact ⟨rfl, by simp⟩
  | cons pg rest ih =>
    intro ws ls h
    simp only [processPages] at h
    cases hpg : processPage L cf tf now pg with
    | none => rw [hpg] at h; exact absurd h (by simp)
    | some wmsg =>
      cases hrest : processPages L cf tf now rest with
      | none => rw [hpg, hrest] at h; exact absurd h (by simp)
      | some wsls =>
        obtain ⟨w, msg⟩ := wmsg
        obtain ⟨ws', ls'⟩ := wsls
        rw [hpg, hrest] at h
        simp only [Option.some.injEq, Prod.mk.injEq] at h
        obtain ⟨rfl, rfl⟩ := h
        obtain ⟨ihw, ihm⟩ := ih ws' ls' hrest
        by_cases htitle : get_title pg.properties = ""
        · have hps := processPage_skip L cf tf now pg htitle
          rw [hpg] at hps
          have hinj := Option.some.inj hps
          obtain ⟨rfl, rfl⟩ : w = [] ∧ msg = "SKIP: no title (page_id=" ++ pg.id ++ ")" :=
            ⟨congrArg Prod.fst hinj, congrArg Prod.snd hinj⟩
          constructor
          · simpa [List.filter_cons, htitle] using ihw
          · intro q hq hqt
            rcases List.mem_cons.mp hq with rfl | hq'
            · exact List.mem_cons_self _ _
            · exact List.mem_cons_of_mem _ (ihm q hq' hqt)
        · have hmd : ∃ md, fetch_page_markdown L cf tf pg.id = some md := by
            cases hf : fetch_page_markdown L cf tf pg.id with
            | none =>
              rw [processPage] at hpg
              simp only [if_neg htitle, hf] at hpg
              exact absurd hpg (by simp)
            | some md => exact ⟨md, rfl⟩
          obtain ⟨md, hf⟩ := hmd
          have hpw := processPage_write L cf tf now pg htitle md hf
          rw [hpg] at hpw
          have hinj := Option.some.inj hpw
          obtain ⟨rfl, rfl⟩ : w = [pageWrite L cf tf now pg] ∧
              msg = "Wrote: " ++ (pageWrite L cf tf now pg).1 :=
            ⟨congrArg Prod.fst hinj, congrArg Prod.snd hinj⟩
          constructor
          · simpa [List.filter_cons, htitle] using ihw
          · intro q hq hqt
            rcases List.mem_cons.mp hq with rfl | hq'
            · exact absurd hqt htitle
            · exact List.mem_cons_of_mem _ (ihm q hq' hqt)

/-- C7: with credentials present, every queried page whose extracted title is
empty is skipped (a skip line is printed, no file is written for it), the
remaining pages are still processed in order, and the run exits 0. -/
theorem claim_C7_skip_missing_title (env : Env) (pages : List PageRec) (L : Iface)
    (cf tf : Nat) (now : String) (res : MainResult)
    (htok : truthyStr env.token = true) (hdb : truthyStr env.db_id = true)
    (h : mainModel env pages L cf tf now = some res) :
    res.exitCode = 0 ∧
    res.writes =
      (pages.filter (fun pg => get_title pg.properties ≠ "")).map (pageWrite L cf tf now) ∧
    (∀ pg ∈ pages, get_title pg.properties = "" →
      ("SKIP: no title (page_id=" ++ pg.id ++ ")") ∈ res.outLog) := by
  rw [mainModel] at h
  rw [if_neg (by simp [htok, hdb])] at h
  cases hpp : processPages L cf tf now pages with
  | none => rw [hpp] at h; exact absurd h (by simp)
  | some wsls =>
    obtain ⟨ws, ls⟩ := wsls
    rw [hpp] at h
    obtain rfl : (⟨0, ws,
        ("Found " ++ toString pages.length ++ " ready GH post(s).") :: (ls ++ ["Done."]),
        []⟩ : MainResult) = res := Option.some.inj h
    obtain ⟨hws, hmem⟩ := processPages_spec L cf tf now pages ws ls hpp
    refine ⟨rfl, hws, ?_⟩
    intro pg hpg hpgt
    exact List.mem_cons_of_mem _ (List.mem_append.mpr (Or.inl (hmem pg hpg hpgt)))

/-- Concrete instantiation of `claim_C7_skip_missing_title`: a page with an
empty title property is skipped, nothing is written, and the run exits 0. -/
theorem claim_C7_witness :
    (MainResult.mk 0 []
      ["Found 1 ready GH post(s).", "SKIP: no title (page_id=p1)", "Done."] []).exitCode = 0 ∧
    (MainResult.mk 0 []
      ["Found 1 ready GH post(s).", "SKIP: no title (page_id=p1)", "Done."] []).writes = [] ∧
    "SKIP: no title (page_id=p1)" ∈
      (MainResult.mk 0 []
        ["Found 1 ready GH post(s).", "SKIP: no title (page_id=p1)", "Done."] []).outLog := by
  have h := claim_C7_skip_missing_title ⟨some "t", some "d"⟩ [⟨"p1", []⟩] emptyIface 1 1
    "2024-01-01"
    (MainResult.mk 0 []
      ["Found 1 ready GH post(s).", "SKIP: no title (page_id=p1)", "Done."] [])
    (by decide) (by decide) (by decide)
  refine ⟨h.1, ?_, h.2.2 ⟨"p1", []⟩ (by decide) (by decide)⟩
  rw [h.2.1]
  decide

/-- C8: when the token or the database id is missing (or empty) in the
environment, `main` prints the configuration error to stderr and returns 1,
having written nothing and having consulted neither the query result nor
the listing interface (the outcome is independent of both). -/
theorem claim_C8_missing_creds (env : Env)
    (h : truthyStr env.token = false ∨ truthyStr env.db_id = false)
    (pages pages' : List PageRec) (L L' : Iface) (cf tf cf' tf' : Nat) (now now' : String) :
    mainModel env pages L cf tf now =
      some ⟨1, [], [], ["ERROR: NOTION_TOKEN / NOTION_DATABASE_ID 가 .env에 필요합니다."]⟩ ∧
    mainModel env pages L cf tf now = mainModel env pages' L' cf' tf' now' := by
  have hcond : (!truthyStr env.token || !truthyStr env.db_id) = true := by
    rcases h with h | h <;> simp [h]
  constructor
  · rw [mainModel, if_pos hcond]
  · rw [mainModel, if_pos hcond, mainModel, if_pos hcond]

/-- Concrete instantiation of `claim_C8_missing_creds`. -/
theorem claim_C8_witness :
    mainModel ⟨none, some "d"⟩ [] emptyIface 0 0 "" =
      some ⟨1, [], [], ["ERROR: NOTION_TOKEN / NOTION_DATABASE_ID 가 .env에 필요합니다."]⟩ ∧
    mainModel ⟨none, some "d"⟩ [] emptyIface 0 0 "" =
      mainModel ⟨none, some "d"⟩ [⟨"p", []⟩] twoPageIface 5 5 "2024-01-01" :=
  claim_C8_missing_creds ⟨none, some "d"⟩ (Or.inl rfl) [] [⟨"p", []⟩] emptyIface twoPageIface
    0 0 5 5 "" "2024-01-01"

/-- Concrete instantiation of `claim_C2_safe_slug`. -/
theorem claim_C2_witness :
    safe_slug (safe_slug "A  b!".data) = safe_slug "A  b!".data ∧
    safe_slug "A  b!".data ≠ [] ∧
    safe_slug "".data = "untitled".data :=
  ⟨(claim_C2_safe_slug "A  b!".data).1, (claim_C2_safe_slug "A  b!".data).2.1,
    (claim_C2_safe_slug "".data).2.2.2.2.2 (by decide)⟩

/-- Concrete instantiation of `claim_C10_multiselect`: options with a missing
and an empty name are dropped, order and duplicates are kept. -/
theorem claim_C10_witness :
    get_multiselect [("Tags", PropVal.multi_select [some "go", none, some "", some "go"])]
        "Tags" =
      List.filterMap validName [some "go", none, some "", some "go"] ∧
    List.filterMap validName [some "go", none, some "", some "go"] = ["go", "go"] :=
  ⟨(claim_C10_multiselect
      [("Tags", PropVal.multi_select [some "go", none, some "", some "go"])] "Tags").2.2.1
      [some "go", none, some "", some "go"] (by decide), by decide⟩

end NotionToHugo
